import Mathlib

set_option maxRecDepth 40000

/-!
Verification of the Segmentation & Classification Engine
(`src/data_processing/text_processor.py` and
`src/data_extraction/extractors/base_extractor.py`).

Python strings are modelled as `List Char` (`Str`); Python `dict`s as
insertion-ordered association lists (`Dict`).  Regex substitutions of the
source are embedded as explicit structural scanners that implement the
leftmost, non-overlapping, greedy-with-backtracking semantics of the Python
`re` module for the concrete patterns used by the source.  A few scanners use
a fuel argument equal to the input length so that every definition reduces in
the kernel.
-/

/-- Python strings, modelled as lists of unicode characters. -/
abbrev Str := List Char

/-- ASCII apostrophe, kept out of literals. -/
def apos : Char := Char.ofNat 39

/-- The character class matched by Python `\s` (and used by `str.split()` /
`str.strip()`) on `str` inputs: the unicode whitespace set. -/
def pyWhitespaceChars : Str :=
  [' ', Char.ofNat 9, Char.ofNat 10, Char.ofNat 11, Char.ofNat 12, Char.ofNat 13,
   Char.ofNat 28, Char.ofNat 29, Char.ofNat 30, Char.ofNat 31,
   Char.ofNat 133, Char.ofNat 160, Char.ofNat 5760,
   Char.ofNat 8192, Char.ofNat 8193, Char.ofNat 8194, Char.ofNat 8195,
   Char.ofNat 8196, Char.ofNat 8197, Char.ofNat 8198, Char.ofNat 8199,
   Char.ofNat 8200, Char.ofNat 8201, Char.ofNat 8202,
   Char.ofNat 8232, Char.ofNat 8233, Char.ofNat 8239, Char.ofNat 8287,
   Char.ofNat 12288]

/-- Whitespace test used throughout (Python `\s`, `str.strip`, `str.split`). -/
def isPySpace (c : Char) : Bool := pyWhitespaceChars.contains c

/-- Python `str.lower()` restricted to the Latin-1 range, which covers every
character occurring in the keyword tables and inputs of this development. -/
def lowerChar (c : Char) : Char :=
  if 65 ≤ c.toNat ∧ c.toNat ≤ 90 then Char.ofNat (c.toNat + 32)
  else if 192 ≤ c.toNat ∧ c.toNat ≤ 222 ∧ c.toNat ≠ 215 then Char.ofNat (c.toNat + 32)
  else c

/-- Python `s.lower()`. -/
def pyLower (l : Str) : Str := l.map lowerChar

/-- Python `s.strip()`: drop leading and trailing whitespace. -/
def pyStrip (l : Str) : Str :=
  ((l.dropWhile isPySpace).reverse.dropWhile isPySpace).reverse

/-- Worker for `s.split()`: accumulates the current word (reversed). -/
def splitWsGo (cur : Str) : Str → List Str
  | [] => if cur = [] then [] else [cur.reverse]
  | c :: cs =>
    if isPySpace c then
      if cur = [] then splitWsGo [] cs else cur.reverse :: splitWsGo [] cs
    else splitWsGo (c :: cur) cs

/-- Python `s.split()` with no argument: whitespace-separated words, no
empty pieces. -/
def pySplitWs (l : Str) : List Str := splitWsGo [] l

/-- Python `len(s.split())`, the word count used by the source. -/
def countWords (l : Str) : Nat := (pySplitWs l).length

/-- Python `" ".join(parts)`. -/
def pyJoinSpace : List Str → Str
  | [] => []
  | [w] => w
  | w :: ws => w ++ ' ' :: pyJoinSpace ws

/-- Python `words[-k:]` for a nonnegative `k` (`words[-0:]` is the whole
list). -/
def lastSlice (ws : List Str) (k : Nat) : List Str :=
  if k = 0 then ws else ws.drop (ws.length - k)

/-- Python `s.count(c)` for a single-character needle. -/
def countChar (c : Char) (l : Str) : Nat := l.count c

/-- Python `needle in hay` on strings: substring containment. -/
def pyInStr (needle hay : Str) : Bool :=
  hay.tails.any (fun t => needle.isPrefixOf t)

/-- Matcher for `\d{k}` at the head of the input: exactly `k` digits. -/
def matchDigits (k : Nat) (l : Str) : Option Str :=
  if (l.take k).length = k ∧ (l.take k).all Char.isDigit then some (l.drop k) else none

/-- Matcher for the regex class slash-or-dash at the head of the input. -/
def matchDateSep : Str → Option Str
  | [] => none
  | c :: r => if c = '/' ∨ c = '-' then some r else none

/-- Existence of a match of the date regex (one or two digits, slash-or-dash,
one or two digits, slash-or-dash, two to four digits) anchored at the head of
the input, backtracking over the quantifier choices. -/
def dateFrom (l : Str) : Bool :=
  ([1, 2]).any fun a =>
    match matchDigits a l with
    | none => false
    | some l1 =>
      match matchDateSep l1 with
      | none => false
      | some l2 =>
        ([1, 2]).any fun b =>
          match matchDigits b l2 with
          | none => false
          | some l3 =>
            match matchDateSep l3 with
            | none => false
            | some l4 => ([2, 3, 4]).any fun k => (matchDigits k l4).isSome

/-- Python `re.search` truthiness for the date pattern of the source: a match
may start at any position. -/
def hasDateLike (l : Str) : Bool := l.tails.any dateFrom

/-- Python `bool(re.search(r'\d', l))`. -/
def hasDigitChar (l : Str) : Bool := l.any Char.isDigit

/-- Values stored in chunk metadata dictionaries. -/
inductive MetaVal where
  | intV (n : Nat)
  | boolV (b : Bool)
  | strV (s : Str)
deriving DecidableEq, Repr

/-- Python `dict` with string keys, modelled as an insertion-ordered
association list whose keys are unique when built through `dictSet`. -/
abbrev Dict := List (Str × MetaVal)

/-- Python `d[k] = v`: replace in place if the key exists, else append. -/
def dictSet : Dict → Str → MetaVal → Dict
  | [], k, v => [(k, v)]
  | (a, w) :: d, k, v => if a = k then (a, v) :: d else (a, w) :: dictSet d k v

/-- Python `d.update(m)`. -/
def dictUpdate (d : Dict) (m : Dict) : Dict :=
  m.foldl (fun acc kv => dictSet acc kv.1 kv.2) d

/-- Python `d.get(k)`. -/
def dictLookup : Dict → Str → Option MetaVal
  | [], _ => none
  | (a, w) :: d, k => if a = k then some w else dictLookup d k

/-- Python `k in d` for dictionaries. -/
def dictHasKey (d : Dict) (k : Str) : Bool := (dictLookup d k).isSome

/-- Embedding of the `TextChunk` dataclass fields
(`src/data_processing/text_processor.py`). -/
structure TextChunk where
  text : Str
  chunk_index : Nat
  word_count : Nat
  char_count : Nat
  chunk_type : Str
  keywords : List Str
  metadata : Dict
deriving DecidableEq, Repr

/-- `TextChunk(...)` construction followed by `__post_init__`, which
recomputes `word_count` and `char_count` from `text` when the supplied value
is falsy (zero). -/
def mkTextChunk (text : Str) (idx wc cc : Nat) (ty : Str) (kw : List Str)
    (md : Dict) : TextChunk :=
  { text := text
    chunk_index := idx
    word_count := if wc = 0 then countWords text else wc
    char_count := if cc = 0 then text.length else cc
    chunk_type := ty
    keywords := kw
    metadata := md }

/-- Configuration state of a `TextProcessor` instance; the source never
reassigns any of these fields after `__init__`, and every method below takes
the processor as a read-only argument. -/
structure TextProcessor where
  chunk_size : Nat
  overlap : Nat
  min_chunk_size : Nat
deriving DecidableEq, Repr

/-- `TextProcessor.__init__(chunk_size, overlap)`: `min_chunk_size` is
hard-coded to `100`. -/
def mkTextProcessor (chunk_size : Nat) (overlap : Nat) : TextProcessor :=
  ⟨chunk_size, overlap, 100⟩

/-- The `chunk_keywords` table of `TextProcessor.__init__`, in source order. -/
def chunk_keywords : List (Str × List Str) :=
  [(("procedure").data,
    [("démarche").data, ("procédure").data, ("étape").data, ("comment").data,
     ("mode d").data ++ apos :: ("emploi").data]),
   (("definition").data,
    [("définition").data, ("qu").data ++ apos :: ("est-ce").data,
     ("signifie").data, ("correspond").data]),
   (("obligation").data,
    [("obligation").data, ("devoir").data, ("doit").data, ("tenu de").data,
     ("obligatoire").data]),
   (("droit").data,
    [("droit").data, ("peut").data, ("autorisé").data, ("possibilité").data,
     ("faculté").data]),
   (("sanction").data,
    [("sanction").data, ("amende").data, ("pénalité").data, ("infraction").data,
     ("contravention").data]),
   (("aide").data,
    [("aide").data, ("subvention").data, ("allocation").data,
     ("financement").data, ("soutien").data])]

/-- `TextProcessor.classify_chunk_content`: categories whose keyword list has
a member occurring in the lower-cased text, in table order, defaulting to
`['general']`. -/
def classify_chunk_content (t : Str) : List Str :=
  let lower := pyLower t
  let detected :=
    (chunk_keywords.filter (fun p => p.2.any (fun kw => pyInStr kw lower))).map Prod.fst
  if detected = [] then [("general").data] else detected

/-- Scanner for `re.sub` of one-or-more whitespace with a single space: each
maximal whitespace run becomes one space (`prevWs` records whether the scanner
is inside a run). -/
def collapseWsGo (prevWs : Bool) : Str → Str
  | [] => []
  | c :: cs =>
    if isPySpace c then
      if prevWs then collapseWsGo true cs else ' ' :: collapseWsGo true cs
    else c :: collapseWsGo false cs

/-- First substitution of `clean_text`. -/
def collapseWs (l : Str) : Str := collapseWsGo false l

/-- Action of the blank-line regex (newline, any whitespace, newline, replaced
by two newlines) on one maximal whitespace run: when the run holds at least
two newlines the single match spans from its first to its last newline. -/
def blankRun (run : Str) : Str :=
  if 2 ≤ run.count (Char.ofNat 10) then
    run.takeWhile (fun c => c ≠ Char.ofNat 10) ++ Char.ofNat 10 :: Char.ofNat 10 ::
      (run.reverse.takeWhile (fun c => c ≠ Char.ofNat 10)).reverse
  else run

/-- Scanner for the blank-line substitution: buffers the current whitespace
run in `pend` and rewrites it on leaving the run. -/
def blankLinesGo (pend : Str) : Str → Str
  | [] => blankRun pend
  | c :: cs =>
    if isPySpace c then blankLinesGo (pend ++ [c]) cs
    else blankRun pend ++ c :: blankLinesGo [] cs

/-- Second substitution of `clean_text`. -/
def blankLinesSub (l : Str) : Str := blankLinesGo [] l

/-- The four single-character `str.replace` calls of `clean_text`
(non-breaking space, curly apostrophe, en dash, em dash). -/
def replaceTypo (c : Char) : Char :=
  if c = Char.ofNat 160 then ' '
  else if c = Char.ofNat 8217 then apos
  else if c = Char.ofNat 8211 then '-'
  else if c = Char.ofNat 8212 then '-'
  else c

/-- Typographic replacement pass of `clean_text`. -/
def typoReplace (l : Str) : Str := l.map replaceTypo

/-- The punctuation class of the spacing regexes of `clean_text`. -/
def isPunctMark (c : Char) : Bool := ([',', '.', '!', '?', ';', ':']).contains c

/-- Scanner for `re.sub` deleting whitespace runs that immediately precede a
punctuation mark; `pend` buffers the current whitespace run, emitted verbatim
when no punctuation follows it. -/
def punctBeforeGo (pend : Str) : Str → Str
  | [] => pend
  | c :: cs =>
    if isPySpace c then punctBeforeGo (pend ++ [c]) cs
    else if isPunctMark c ∧ pend ≠ [] then c :: punctBeforeGo [] cs
    else pend ++ c :: punctBeforeGo [] cs

/-- Scanner for `re.sub` normalizing the run after a punctuation mark to one
space; `skipWs` is set right after a match to consume the matched run. -/
def punctAfterGo (skipWs : Bool) : Str → Str
  | [] => []
  | c :: cs =>
    if skipWs ∧ isPySpace c then punctAfterGo true cs
    else if isPunctMark c then c :: ' ' :: punctAfterGo true cs
    else c :: punctAfterGo false cs

/-- `TextProcessor.clean_text`: whitespace collapse, blank-line collapse,
typographic replacements, punctuation spacing, final strip; empty input maps
to empty output. -/
def clean_text (l : Str) : Str :=
  if l = [] then []
  else pyStrip (punctAfterGo false (punctBeforeGo []
    (typoReplace (blankLinesSub (collapseWs l)))))

/-- Word-character test for the regex word boundary, covering the ASCII range
(every abbreviation protected by the source is ASCII except the degree sign,
which is not a word character in Python either). -/
def isWordChar (c : Char) : Bool := c.isAlphanum || c = '_'

/-- The protected French abbreviations of `smart_split_sentences`, in
alternation order. -/
def abbrevList : List Str :=
  [("M").data, ("Mme").data, ("Dr").data, ("etc").data, ("cf").data,
   ("ex").data, ("art").data, ("vol").data, ("n°").data]

/-- The sentinel the source substitutes for a protected period. -/
def abbrevToken : Str := ("<!ABBREV!>").data

/-- Attempt to match one alternation branch, a period and a single whitespace
character at the head of the input; returns the branch and the rest. -/
def tryAbbrev (l : Str) : Option (Str × Str) :=
  abbrevList.findSome? fun alt =>
    if (alt ++ ['.']).isPrefixOf l then
      match l.drop (alt.length + 1) with
      | w :: rest => if isPySpace w then some (alt, rest) else none
      | [] => none
    else none

/-- Scanner for the abbreviation-protection `re.sub`; `prevW` tracks whether
the previous character is a word character (the word-boundary test), and the
fuel, initially the input length plus one, only decreases strictly faster
than the input and is never exhausted. -/
def abbrevGo : Nat → Bool → Str → Str
  | 0, _, l => l
  | fuel + 1, prevW, l =>
    match l with
    | [] => []
    | c :: cs =>
      if prevW then c :: abbrevGo fuel (isWordChar c) cs
      else
        match tryAbbrev (c :: cs) with
        | some (alt, rest) => alt ++ abbrevToken ++ ' ' :: abbrevGo fuel false rest
        | none => c :: abbrevGo fuel (isWordChar c) cs

/-- Abbreviation-protection substitution of `smart_split_sentences`. -/
def abbrevSub (l : Str) : Str := abbrevGo (l.length + 1) false l

/-- The sentence-terminator class of the splitting regex. -/
def isSentPunct (c : Char) : Bool := (['.', '!', '?']).contains c

/-- Scanner for `re.split` on a run of sentence terminators followed by
whitespace: a terminator run immediately followed by whitespace is a
separator (dropped together with the whitespace run); otherwise the run is
literal text.  `acc` holds the current piece reversed. -/
def splitGo : Nat → Str → Str → List Str
  | 0, acc, l => [acc.reverse ++ l]
  | fuel + 1, acc, l =>
    match l with
    | [] => [acc.reverse]
    | c :: cs =>
      if isSentPunct c then
        let rest := cs.dropWhile isSentPunct
        match rest with
        | w :: _ =>
          if isPySpace w then acc.reverse :: splitGo fuel [] (rest.dropWhile isPySpace)
          else splitGo fuel ((cs.takeWhile isSentPunct).reverse ++ c :: acc) rest
        | [] => splitGo fuel ((cs.takeWhile isSentPunct).reverse ++ c :: acc) rest
      else splitGo fuel (c :: acc) cs

/-- Sentence splitting pass of `smart_split_sentences`. -/
def splitSentPieces (l : Str) : List Str := splitGo (l.length + 1) [] l

/-- Scanner for `s.replace('<!ABBREV!>', '.')`. -/
def restoreGo : Nat → Str → Str
  | 0, l => l
  | fuel + 1, l =>
    match l with
    | [] => []
    | c :: cs =>
      if abbrevToken.isPrefixOf (c :: cs) then
        '.' :: restoreGo fuel ((c :: cs).drop abbrevToken.length)
      else c :: restoreGo fuel cs

/-- Sentinel restoration of `smart_split_sentences`. -/
def restoreAbbrev (l : Str) : Str := restoreGo (l.length + 1) l

/-- `TextProcessor.smart_split_sentences`, regex fallback strategy (the
linguistic strategy delegates to the external spaCy model, which is not part
of this repository): protect abbreviations, split on terminator runs followed
by whitespace, keep the non-blank pieces, restore periods and strip. -/
def smart_split_sentences (l : Str) : List Str :=
  ((splitSentPieces (abbrevSub l)).filter (fun s => pyStrip s ≠ [])).map
    (fun s => pyStrip (restoreAbbrev s))

/-- Loop state of `create_chunks_with_overlap`: emitted chunks, the
accumulating buffer `current`, the next chunk index and the overlap carry. -/
structure ChunkState where
  chunks : List TextChunk
  current : Str
  chunk_index : Nat
  overlap_buffer : Str
deriving DecidableEq, Repr

/-- Initial loop state. -/
def initChunkState : ChunkState := ⟨[], [], 0, []⟩

/-- Structural metadata attached to a chunk emitted inside the sentence loop:
sentence count, digit flag, date flag and coarse complexity. -/
def contentMetadata (t : Str) : Dict :=
  [(("sentence_count").data,
    MetaVal.intV (countChar '.' t + countChar '!' t + countChar '?' t)),
   (("has_numbers").data, MetaVal.boolV (hasDigitChar t)),
   (("has_dates").data, MetaVal.boolV (hasDateLike t)),
   (("complexity").data,
    MetaVal.strV (if 50 < countWords t then ("high").data else ("normal").data))]

/-- Metadata attached to the chunk emitted after the loop: sentence count and
the `is_final` flag only. -/
def finalMetadata (t : Str) : Dict :=
  [(("sentence_count").data,
    MetaVal.intV (countChar '.' t + countChar '!' t + countChar '?' t)),
   (("is_final").data, MetaVal.boolV true)]

/-- One iteration of the sentence loop of `create_chunks_with_overlap`: when
the tentative buffer would exceed `chunk_size` and the buffer is non-empty,
the carry-prefixed buffer is emitted (if it reaches `min_chunk_size`), the
carry is rebuilt from the trailing words of the buffer, and the buffer
restarts at the current sentence; otherwise the sentence is absorbed. -/
def chunkStep (p : TextProcessor) (st : ChunkState) (sentence : Str) : ChunkState :=
  if p.chunk_size < (if st.current ≠ [] then st.current ++ ' ' :: sentence else sentence).length ∧
      st.current ≠ [] then
    { chunks :=
        if p.min_chunk_size ≤ (pyStrip (st.overlap_buffer ++ ' ' :: st.current)).length then
          st.chunks ++ [mkTextChunk (pyStrip (st.overlap_buffer ++ ' ' :: st.current))
            st.chunk_index (countWords (pyStrip (st.overlap_buffer ++ ' ' :: st.current)))
            (pyStrip (st.overlap_buffer ++ ' ' :: st.current)).length (("content").data)
            (classify_chunk_content (pyStrip (st.overlap_buffer ++ ' ' :: st.current)))
            (contentMetadata (pyStrip (st.overlap_buffer ++ ' ' :: st.current)))]
        else st.chunks,
      current := sentence,
      chunk_index :=
        if p.min_chunk_size ≤ (pyStrip (st.overlap_buffer ++ ' ' :: st.current)).length then
          st.chunk_index + 1
        else st.chunk_index,
      overlap_buffer :=
        if 10 < (pySplitWs st.current).length then
          pyJoinSpace (lastSlice (pySplitWs st.current) (p.overlap / 10))
        else st.current }
  else
    { chunks := st.chunks,
      current := if st.current ≠ [] then st.current ++ ' ' :: sentence else sentence,
      chunk_index := st.chunk_index,
      overlap_buffer := st.overlap_buffer }

/-- The whole sentence loop, as a fold over the sentence list. -/
def chunksLoop (p : TextProcessor) (st : ChunkState) (ss : List Str) : ChunkState :=
  ss.foldl (chunkStep p) st

/-- Post-loop flush of `create_chunks_with_overlap`: the buffer is emitted
(with the carry prepended to its text) when the buffer itself is non-empty
and at least `min_chunk_size` characters long. -/
def finalFlush (p : TextProcessor) (st : ChunkState) : List TextChunk :=
  if st.current ≠ [] ∧ p.min_chunk_size ≤ st.current.length then
    st.chunks ++ [mkTextChunk (pyStrip (st.overlap_buffer ++ ' ' :: st.current))
      st.chunk_index (countWords (pyStrip (st.overlap_buffer ++ ' ' :: st.current)))
      (pyStrip (st.overlap_buffer ++ ' ' :: st.current)).length (("content").data)
      (classify_chunk_content (pyStrip (st.overlap_buffer ++ ' ' :: st.current)))
      (finalMetadata (pyStrip (st.overlap_buffer ++ ' ' :: st.current)))]
  else st.chunks

/-- `TextProcessor.create_chunks_with_overlap`. -/
def create_chunks_with_overlap (p : TextProcessor) (ss : List Str) : List TextChunk :=
  finalFlush p (chunksLoop p initChunkState ss)

/-- The title chunk construction of `process_document`: present when the
title is non-empty (truthy) and its stripped form is longer than 10
characters; note `char_count` is the length of the unstripped title while
`text` is the stripped title. -/
def titleChunksOf (title : Str) (md : Dict) : List TextChunk :=
  if title ≠ [] ∧ 10 < (pyStrip title).length then
    [mkTextChunk (pyStrip title) 0 (countWords title) title.length
      (("title").data) [("titre").data]
      (dictSet md (("is_title").data) (MetaVal.boolV true))]
  else []

/-- `TextProcessor.process_document`: clean the content, bail out below the
floor, optionally prepend a title chunk, segment, assemble, merge the caller
metadata into every content chunk and shift content indices past the title. -/
def process_document (p : TextProcessor) (title content : Str) (md : Dict) :
    List TextChunk :=
  if (clean_text content).length < p.min_chunk_size then []
  else if smart_split_sentences (clean_text content) = [] then titleChunksOf title md
  else
    titleChunksOf title md ++
      (create_chunks_with_overlap p (smart_split_sentences (clean_text content))).map
        (fun c => { c with
          metadata := dictUpdate c.metadata md,
          chunk_index := c.chunk_index + (titleChunksOf title md).length })

/-- The domain keyword table of `BaseExtractor.classify_domain`
(`src/data_extraction/extractors/base_extractor.py`), in source order. -/
def domain_keywords : List (Str × List Str) :=
  [(("juridique").data,
    [("droit").data, ("loi").data, ("code").data, ("juridique").data,
     ("tribunal").data, ("justice").data, ("contrat").data,
     ("responsabilité").data]),
   (("rh").data,
    [("salarié").data, ("emploi").data, ("recrutement").data,
     ("formation").data, ("rh").data, ("ressources humaines").data,
     ("travail").data]),
   (("economique").data,
    [("économie").data, ("finance").data, ("aide").data, ("subvention").data,
     ("crédit").data, ("impôt").data, ("fiscal").data])]

/-- The per-domain score dictionary of `classify_domain`: for each domain,
the number of its listed keywords occurring in the lower-cased concatenation
of the title, a space, and the first 500 characters of the content. -/
def domainScores (title content : Str) : List (Str × Nat) :=
  let text := pyLower (title ++ ' ' :: content.take 500)
  domain_keywords.map (fun p => (p.1, p.2.countP (fun w => pyInStr w text)))

/-- Python `max` over the score dictionary values (all scores are
nonnegative, so folding from zero agrees with `max` on the non-empty list). -/
def pyMaxVals (l : List (Str × Nat)) : Nat := (l.map Prod.snd).foldl Nat.max 0

/-- Python `max(d, key=d.get)`: the first key attaining the maximal value,
by a fold that replaces the champion only on a strictly greater value. -/
def pyArgMax (l : List (Str × Nat)) : Str :=
  match l with
  | [] => []
  | e :: rest => (rest.foldl (fun best x => if best.2 < x.2 then x else best) e).1

/-- `BaseExtractor.classify_domain` (the `url` argument is accepted and
ignored, as in the source). -/
def classify_domain (title content url : Str) : Str :=
  let scores := domainScores title content
  if 0 < pyMaxVals scores then pyArgMax scores else ("autre").data

/-- Specification-side restatement of the domain classifier, following the
spec's words for the refinement comparison of claim C8: count distinct
keywords per domain over the lower-cased title plus first 500 content
characters, return the domain with the strictly highest count, resolve ties
in favor of the first-defined domain in table order, and return the sentinel
when every domain scores zero. -/
def classify_domain_spec (title content url : Str) : Str :=
  let scores := domainScores title content
  if scores.all (fun e => e.2 = 0) then ("autre").data
  else
    match scores.filter (fun e => pyMaxVals scores ≤ e.2) with
    | [] => ("autre").data
    | e :: _ => e.1

/-! Helper lemmas about whitespace handling. -/

theorem dropWhile_eq_self_of_head {p : Char → Bool} {l : Str}
    (h : ∀ a ∈ l.head?, p a = false) : l.dropWhile p = l := by
  cases l with
  | nil => rfl
  | cons a t =>
    have ha : p a = false := h a (by simp)
    simp [List.dropWhile_cons, ha]

theorem head_false_of_dropWhile_eq_self {p : Char → Bool} {l : Str}
    (h : l.dropWhile p = l) : ∀ a ∈ l.head?, p a = false := by
  cases l with
  | nil => simp
  | cons a t =>
    intro b hb
    simp only [List.head?_cons, Option.mem_def, Option.some.injEq] at hb
    rw [← hb]
    by_contra hpb
    have hpb2 : p a = true := by
      cases hp : p a with
      | false => exact absurd hp hpb
      | true => rfl
    rw [List.dropWhile_cons, if_pos hpb2] at h
    have hle : (t.dropWhile p).length ≤ t.length := (List.dropWhile_suffix p).length_le
    have := congrArg List.length h
    simp at this
    omega

theorem pyStrip_eq_self_of {l : Str}
    (h1 : ∀ a ∈ l.head?, isPySpace a = false)
    (h2 : ∀ a ∈ l.getLast?, isPySpace a = false) : pyStrip l = l := by
  unfold pyStrip
  rw [dropWhile_eq_self_of_head h1]
  rw [dropWhile_eq_self_of_head (by rw [List.head?_reverse]; exact h2)]
  exact List.reverse_reverse l

theorem length_pyStrip_le (l : Str) : (pyStrip l).length ≤ l.length := by
  unfold pyStrip
  have h1 : (l.dropWhile isPySpace).length ≤ l.length :=
    (List.dropWhile_suffix isPySpace).length_le
  have h2 : ((l.dropWhile isPySpace).reverse.dropWhile isPySpace).length ≤
      (l.dropWhile isPySpace).reverse.length :=
    (List.dropWhile_suffix isPySpace).length_le
  simp at h2 ⊢
  omega

theorem dropWhile_eq_self_of_pyStrip {l : Str} (h : pyStrip l = l) :
    l.dropWhile isPySpace = l := by
  have hlen := congrArg List.length h
  have h1 : (l.dropWhile isPySpace).length ≤ l.length :=
    (List.dropWhile_suffix isPySpace).length_le
  have h2 : ((l.dropWhile isPySpace).reverse.dropWhile isPySpace).length ≤
      (l.dropWhile isPySpace).reverse.length :=
    (List.dropWhile_suffix isPySpace).length_le
  have h3 : (pyStrip l).length ≤ (l.dropWhile isPySpace).length := by
    unfold pyStrip; simp at h2 ⊢; omega
  have h4 : (l.dropWhile isPySpace).length = l.length := by
    rw [hlen] at h3; omega
  exact (List.dropWhile_suffix isPySpace).eq_of_length h4

theorem head_not_space_of_pyStrip {l : Str} (h : pyStrip l = l) :
    ∀ a ∈ l.head?, isPySpace a = false :=
  head_false_of_dropWhile_eq_self (dropWhile_eq_self_of_pyStrip h)

theorem last_not_space_of_pyStrip {l : Str} (h : pyStrip l = l) :
    ∀ a ∈ l.getLast?, isPySpace a = false := by
  have hd := dropWhile_eq_self_of_pyStrip h
  have h2 : l.reverse.dropWhile isPySpace = l.reverse := by
    have : pyStrip l = (l.reverse.dropWhile isPySpace).reverse := by
      unfold pyStrip; rw [hd]
    rw [h] at this
    have := congrArg List.reverse this
    simpa using this.symm
  intro a ha
  rw [List.getLast?_eq_head?_reverse] at ha
  exact head_false_of_dropWhile_eq_self h2 a ha

theorem pyStrip_space_cons (y : Str) : pyStrip (' ' :: y) = pyStrip y := by
  unfold pyStrip
  rw [List.dropWhile_cons, if_pos (by decide)]

theorem pyStrip_join {x y : Str} (hx : pyStrip x = x) (hy : pyStrip y = y)
    (hxne : x ≠ []) (hyne : y ≠ []) : pyStrip (x ++ ' ' :: y) = x ++ ' ' :: y := by
  apply pyStrip_eq_self_of
  · intro a ha
    rw [List.head?_append] at ha
    cases x with
    | nil => exact absurd rfl hxne
    | cons b t =>
      simp only [List.head?_cons, Option.or_some, Option.mem_def,
        Option.some.injEq] at ha
      rw [← ha]
      exact head_not_space_of_pyStrip hx b (by simp)
  · intro a ha
    rw [List.getLast?_append] at ha
    have hysome : y.getLast? ≠ none := by
      cases y with
      | nil => exact absurd rfl hyne
      | cons b t => simp [List.getLast?]
    have hlast : (' ' :: y).getLast? = y.getLast? := by
      have : (' ' :: y) = [' '] ++ y := rfl
      rw [this, List.getLast?_append]
      cases hgy : y.getLast? with
      | none => exact absurd hgy hysome
      | some b => rfl
    rw [hlast] at ha
    cases hgy : y.getLast? with
    | none => exact absurd hgy hysome
    | some b =>
      rw [hgy] at ha
      simp only [Option.or_some, Option.mem_def, Option.some.injEq] at ha
      rw [← ha]
      exact last_not_space_of_pyStrip hy b (by rw [hgy]; rfl)

theorem dropWhile_append_cases (p : Char → Bool) (x r : Str) :
    List.dropWhile p (x ++ r) =
      if x.all p then List.dropWhile p r else List.dropWhile p x ++ r := by
  induction x with
  | nil => simp
  | cons a t ih =>
    simp only [List.cons_append, List.dropWhile_cons, List.all_cons]
    cases hpa : p a with
    | true => simpa [hpa] using ih
    | false => simp [hpa]

theorem pyStrip_append_stripped {x y : Str} (hy : pyStrip y = y) (hyne : y ≠ []) :
    pyStrip (x ++ ' ' :: y) =
      if x.dropWhile isPySpace = [] then y
      else x.dropWhile isPySpace ++ ' ' :: y := by
  have hyd : y.dropWhile isPySpace = y := dropWhile_eq_self_of_pyStrip hy
  have hylast : ∀ a ∈ y.getLast?, isPySpace a = false := last_not_space_of_pyStrip hy
  cases hcase : x.dropWhile isPySpace with
  | nil =>
    have hall : x.all isPySpace := by
      rw [List.all_eq_true]
      exact List.dropWhile_eq_nil_iff.mp hcase
    simp only [if_pos rfl]
    unfold pyStrip
    rw [dropWhile_append_cases, if_pos hall, List.dropWhile_cons,
      if_pos (by decide), hyd]
    rw [dropWhile_eq_self_of_head (by rw [List.head?_reverse]; exact hylast)]
    exact List.reverse_reverse y
  | cons b t =>
    rw [if_neg (by simp)]
    have hall : x.all isPySpace = false := by
      by_contra hx
      have : x.all isPySpace = true := by
        cases hv : x.all isPySpace with
        | true => rfl
        | false => exact absurd hv hx
      rw [List.dropWhile_eq_nil_iff.mpr (List.all_eq_true.mp this)] at hcase
      exact List.noConfusion hcase
    unfold pyStrip
    rw [dropWhile_append_cases, if_neg (by simp [hall]), hcase]
    have hrev : ((b :: t) ++ ' ' :: y).reverse = y.reverse ++ [' '] ++ (b :: t).reverse := by
      simp
    rw [hrev]
    have hyrev : (y.reverse ++ [' '] ++ (b :: t).reverse).dropWhile isPySpace =
        y.reverse ++ [' '] ++ (b :: t).reverse := by
      apply dropWhile_eq_self_of_head
      intro a ha
      rw [List.append_assoc, List.head?_append] at ha
      cases y with
      | nil => exact absurd rfl hyne
      | cons c u =>
        rw [List.head?_reverse] at ha
        cases hgy : (c :: u).getLast? with
        | none => simp [List.getLast?] at hgy
        | some d =>
          rw [hgy] at ha
          simp only [Option.or_some, Option.mem_def, Option.some.injEq] at ha
          rw [← ha]
          exact hylast d (by rw [hgy]; rfl)
    rw [hyrev]
    simp

/-! Helper lemmas about `pySplitWs`, `pyJoinSpace` and `countWords`. -/

theorem length_pyStrip_append_ge {x y : Str} (hy : pyStrip y = y) (hyne : y ≠ []) :
    y.length ≤ (pyStrip (x ++ ' ' :: y)).length := by
  rw [pyStrip_append_stripped hy hyne]
  cases hcase : x.dropWhile isPySpace with
  | nil => simp
  | cons b t => simp [hcase]; omega

theorem splitWsGo_words {l : Str} : ∀ cur : Str,
    (∀ c ∈ cur, isPySpace c = false) →
    ∀ w ∈ splitWsGo cur l, w ≠ [] ∧ ∀ c ∈ w, isPySpace c = false := by
  induction l with
  | nil =>
    intro cur hcur w hw
    unfold splitWsGo at hw
    by_cases hc : cur = []
    · simp [hc] at hw
    · rw [if_neg hc] at hw
      simp only [List.mem_singleton] at hw
      subst hw
      refine ⟨by simpa using hc, ?_⟩
      intro c hc2
      exact hcur c (by simpa using hc2)
  | cons a t ih =>
    intro cur hcur w hw
    unfold splitWsGo at hw
    by_cases hsp : isPySpace a = true
    · rw [if_pos hsp] at hw
      by_cases hc : cur = []
      · rw [if_pos hc] at hw
        exact ih [] (by simp) w hw
      · rw [if_neg hc] at hw
        rcases List.mem_cons.mp hw with h1 | h2
        · subst h1
          refine ⟨by simpa using hc, ?_⟩
          intro c hc2
          exact hcur c (by simpa using hc2)
        · exact ih [] (by simp) w h2
    · rw [if_neg hsp] at hw
      refine ih (a :: cur) ?_ w hw
      intro c hc2
      rcases List.mem_cons.mp hc2 with h1 | h2
      · subst h1
        cases hv : isPySpace c with
        | false => rfl
        | true => exact absurd hv hsp
      · exact hcur c h2

theorem pySplitWs_words {l : Str} : ∀ w ∈ pySplitWs l, w ≠ [] ∧ ∀ c ∈ w, isPySpace c = false :=
  splitWsGo_words [] (by simp)

theorem pyJoinSpace_ne_nil {ws : List Str} (hne : ws ≠ [])
    (hw : ∀ w ∈ ws, w ≠ []) : pyJoinSpace ws ≠ [] := by
  cases ws with
  | nil => exact absurd rfl hne
  | cons w rest =>
    cases rest with
    | nil => simpa [pyJoinSpace] using hw w (by simp)
    | cons x u =>
      have hwne : w ≠ [] := hw w (by simp)
      simp only [pyJoinSpace]
      intro hcontra
      rcases List.append_eq_nil.mp hcontra with ⟨h1, _⟩
      exact hwne h1

theorem pyJoinSpace_stripped {ws : List Str}
    (hw : ∀ w ∈ ws, w ≠ [] ∧ ∀ c ∈ w, isPySpace c = false) :
    pyStrip (pyJoinSpace ws) = pyJoinSpace ws := by
  induction ws with
  | nil => rfl
  | cons w rest ih =>
    cases rest with
    | nil =>
      obtain ⟨hne, hchars⟩ := hw w (by simp)
      simp only [pyJoinSpace]
      apply pyStrip_eq_self_of
      · intro a ha
        exact hchars a (List.mem_of_mem_head? ha)
      · intro a ha
        exact hchars a (List.mem_of_mem_getLast? ha)
    | cons x u =>
      obtain ⟨hne, hchars⟩ := hw w (by simp)
      have hws : pyStrip w = w := by
        apply pyStrip_eq_self_of
        · intro a ha
          exact hchars a (List.mem_of_mem_head? ha)
        · intro a ha
          exact hchars a (List.mem_of_mem_getLast? ha)
      have hrest : pyStrip (pyJoinSpace (x :: u)) = pyJoinSpace (x :: u) :=
        ih (fun v hv => hw v (by simp [hv]))
      have hrestne : pyJoinSpace (x :: u) ≠ [] :=
        pyJoinSpace_ne_nil (by simp) (fun v hv => (hw v (by simp [hv])).1)
      simp only [pyJoinSpace]
      exact pyStrip_join hws hrest hne hrestne

theorem lastSlice_subset {ws : List Str} {k : Nat} : ∀ w ∈ lastSlice ws k, w ∈ ws := by
  intro w hw
  unfold lastSlice at hw
  by_cases hk : k = 0
  · rwa [if_pos hk] at hw
  · rw [if_neg hk] at hw
    exact List.drop_subset _ ws hw

theorem lastSlice_ne_nil {ws : List Str} {k : Nat} (hne : ws ≠ []) :
    lastSlice ws k ≠ [] := by
  unfold lastSlice
  by_cases hk : k = 0
  · rwa [if_pos hk]
  · rw [if_neg hk]
    have hlen : 0 < ws.length := List.length_pos.mpr hne
    intro hcontra
    have := congrArg List.length hcontra
    rw [List.length_drop] at this
    simp at this
    omega

theorem splitWsGo_nil (cur : Str) :
    splitWsGo cur [] = if cur = [] then [] else [cur.reverse] := rfl

theorem splitWsGo_cons (cur : Str) (c : Char) (cs : Str) :
    splitWsGo cur (c :: cs) =
      if isPySpace c then
        if cur = [] then splitWsGo [] cs else cur.reverse :: splitWsGo [] cs
      else splitWsGo (c :: cur) cs := rfl

theorem splitWsGo_dropWhile (l : Str) :
    splitWsGo [] (l.dropWhile isPySpace) = splitWsGo [] l := by
  induction l with
  | nil => rfl
  | cons a t ih =>
    rw [List.dropWhile_cons]
    cases hsp : isPySpace a with
    | true =>
      rw [if_pos rfl, ih, splitWsGo_cons]
      simp [hsp]
    | false =>
      rw [if_neg (by simp)]

theorem splitWsGo_all_space {sfx : Str} (hs : ∀ c ∈ sfx, isPySpace c = true) :
    ∀ cur : Str, splitWsGo cur sfx = splitWsGo cur [] := by
  induction sfx with
  | nil => intro cur; rfl
  | cons a t ih =>
    intro cur
    have hsa : isPySpace a = true := hs a (by simp)
    have iht := ih (fun c hc => hs c (by simp [hc]))
    rw [splitWsGo_cons, splitWsGo_nil]
    by_cases hc : cur = []
    · rw [if_pos hsa, if_pos hc, if_pos hc, iht []]
      rfl
    · rw [if_pos hsa, if_neg hc, if_neg hc, iht []]
      rfl

theorem splitWsGo_append_space {sfx : Str} (hs : ∀ c ∈ sfx, isPySpace c = true) :
    ∀ (l : Str) (cur : Str), splitWsGo cur (l ++ sfx) = splitWsGo cur l := by
  intro l
  induction l with
  | nil =>
    intro cur
    simpa using splitWsGo_all_space hs cur
  | cons a t ih =>
    intro cur
    simp only [List.cons_append, splitWsGo_cons]
    cases hsa : isPySpace a with
    | true => by_cases hc : cur = [] <;> simp [hsa, hc, ih]
    | false => simp [hsa, ih (a :: cur)]

theorem countWords_pyStrip (l : Str) : countWords (pyStrip l) = countWords l := by
  unfold countWords pySplitWs
  have hdecomp : l.dropWhile isPySpace =
      pyStrip l ++ ((l.dropWhile isPySpace).reverse.takeWhile isPySpace).reverse := by
    unfold pyStrip
    have := List.takeWhile_append_dropWhile isPySpace (l.dropWhile isPySpace).reverse
    have h2 := congrArg List.reverse this
    simp only [List.reverse_append, List.reverse_reverse] at h2
    exact h2.symm
  have hsfx : ∀ c ∈ ((l.dropWhile isPySpace).reverse.takeWhile isPySpace).reverse,
      isPySpace c = true := by
    intro c hc
    rw [List.mem_reverse] at hc
    exact List.mem_takeWhile_imp hc
  rw [← splitWsGo_dropWhile l, hdecomp, splitWsGo_append_space hsfx]

/-! Helper lemmas about the chunk assembly loop. -/

theorem mkTextChunk_char_count (t : Str) (i w : Nat) (ty : Str) (kw : List Str)
    (md : Dict) : (mkTextChunk t i w t.length ty kw md).char_count = t.length := by
  unfold mkTextChunk
  by_cases h : t.length = 0 <;> simp [h]

theorem mkTextChunk_word_count (t : Str) (i c : Nat) (ty : Str) (kw : List Str)
    (md : Dict) :
    (mkTextChunk t i (countWords t) c ty kw md).word_count = countWords t := by
  unfold mkTextChunk
  by_cases h : countWords t = 0 <;> simp [h]

theorem chunksLoop_cons (p : TextProcessor) (st : ChunkState) (s : Str) (ss : List Str) :
    chunksLoop p st (s :: ss) = chunksLoop p (chunkStep p st s) ss := rfl

theorem chunksLoop_append (p : TextProcessor) (st : ChunkState) (ss1 ss2 : List Str) :
    chunksLoop p st (ss1 ++ ss2) = chunksLoop p (chunksLoop p st ss1) ss2 :=
  List.foldl_append _ _ _ _

theorem chunksLoop_inv (p : TextProcessor) (P : ChunkState → Prop) :
    ∀ (ss : List Str) (st : ChunkState), P st →
      (∀ st2 s, s ∈ ss → P st2 → P (chunkStep p st2 s)) →
      P (chunksLoop p st ss) := by
  intro ss
  induction ss with
  | nil => intro st h _; exact h
  | cons s t ih =>
    intro st h hstep
    rw [chunksLoop_cons]
    exact ih _ (hstep st s (by simp) h)
      (fun st2 s2 hs2 hp => hstep st2 s2 (by simp [hs2]) hp)

theorem chunkStep_chunks_mono (p : TextProcessor) (st : ChunkState) (s : Str)
    (ch : TextChunk) (h : ch ∈ st.chunks) : ch ∈ (chunkStep p st s).chunks := by
  unfold chunkStep
  split_ifs <;> simp [h]

theorem mem_finalFlush_of_mem (p : TextProcessor) (st : ChunkState)
    (ch : TextChunk) (h : ch ∈ st.chunks) : ch ∈ finalFlush p st := by
  unfold finalFlush
  split_ifs <;> simp [h]

theorem mem_flush_loop_of_mem (p : TextProcessor) :
    ∀ (ss : List Str) (st : ChunkState) (ch : TextChunk), ch ∈ st.chunks →
      ch ∈ finalFlush p (chunksLoop p st ss) := by
  intro ss
  induction ss with
  | nil => intro st ch h; exact mem_finalFlush_of_mem p st ch h
  | cons s t ih =>
    intro st ch h
    rw [chunksLoop_cons]
    exact ih _ ch (chunkStep_chunks_mono p st s ch h)

theorem chunkStep_preserves_stripped_floor (p : TextProcessor) (st : ChunkState)
    (s : Str) (hsne : s ≠ []) (hsst : pyStrip s = s)
    (hcur : pyStrip st.current = st.current)
    (hbuf : pyStrip st.overlap_buffer = st.overlap_buffer)
    (hfloor : ∀ ch ∈ st.chunks, p.min_chunk_size ≤ ch.char_count) :
    pyStrip (chunkStep p st s).current = (chunkStep p st s).current ∧
    pyStrip (chunkStep p st s).overlap_buffer = (chunkStep p st s).overlap_buffer ∧
    ∀ ch ∈ (chunkStep p st s).chunks, p.min_chunk_size ≤ ch.char_count := by
  unfold chunkStep
  by_cases hcond : p.chunk_size <
      (if st.current ≠ [] then st.current ++ ' ' :: s else s).length ∧ st.current ≠ []
  · rw [if_pos hcond]
    refine ⟨hsst, ?_, ?_⟩
    · by_cases hw : 10 < (pySplitWs st.current).length
      · simp only [hw, if_pos]
        apply pyJoinSpace_stripped
        intro w hwmem
        exact pySplitWs_words w (lastSlice_subset w hwmem)
      · simp only [hw, if_neg, ite_false]
        exact hcur
    · intro ch hch
      by_cases hemit : p.min_chunk_size ≤
          (pyStrip (st.overlap_buffer ++ ' ' :: st.current)).length
      · simp only [hemit, if_pos] at hch
        rcases List.mem_append.mp hch with h1 | h2
        · exact hfloor ch h1
        · have heq : ch = mkTextChunk (pyStrip (st.overlap_buffer ++ ' ' :: st.current))
              st.chunk_index (countWords (pyStrip (st.overlap_buffer ++ ' ' :: st.current)))
              (pyStrip (st.overlap_buffer ++ ' ' :: st.current)).length (("content").data)
              (classify_chunk_content (pyStrip (st.overlap_buffer ++ ' ' :: st.current)))
              (contentMetadata (pyStrip (st.overlap_buffer ++ ' ' :: st.current))) := by
            simpa using h2
          rw [heq, mkTextChunk_char_count]
          exact hemit
      · simp only [hemit, if_neg, ite_false] at hch
        exact hfloor ch hch
  · rw [if_neg hcond]
    refine ⟨?_, hbuf, hfloor⟩
    by_cases hc : st.current = []
    · simp only [hc, ne_eq, not_true_eq_false, ite_false]
      simpa [hc] using hsst
    · simp only [hc, ne_eq, not_false_eq_true, ite_true]
      exact pyStrip_join hcur hsst hc hsne

theorem chunkStep_chunks_cases (p : TextProcessor) (st : ChunkState) (s : Str) :
    (chunkStep p st s).chunks = st.chunks ∨
    (chunkStep p st s).chunks = st.chunks ++
      [mkTextChunk (pyStrip (st.overlap_buffer ++ ' ' :: st.current)) st.chunk_index
        (countWords (pyStrip (st.overlap_buffer ++ ' ' :: st.current)))
        (pyStrip (st.overlap_buffer ++ ' ' :: st.current)).length (("content").data)
        (classify_chunk_content (pyStrip (st.overlap_buffer ++ ' ' :: st.current)))
        (contentMetadata (pyStrip (st.overlap_buffer ++ ' ' :: st.current)))] := by
  unfold chunkStep
  by_cases h1 : p.chunk_size <
      (if st.current ≠ [] then st.current ++ ' ' :: s else s).length ∧ st.current ≠ []
  · rw [if_pos h1]
    by_cases h2 : p.min_chunk_size ≤ (pyStrip (st.overlap_buffer ++ ' ' :: st.current)).length
    · right; simp [h2]
    · left; simp [h2]
  · left; rw [if_neg h1]

theorem loop_chunks_shape (p : TextProcessor) (ss : List Str) :
    ∀ ch ∈ (chunksLoop p initChunkState ss).chunks, ∃ t i,
      ch = mkTextChunk t i (countWords t) t.length (("content").data)
        (classify_chunk_content t) (contentMetadata t) := by
  refine chunksLoop_inv p (fun st => ∀ ch ∈ st.chunks, ∃ t i,
    ch = mkTextChunk t i (countWords t) t.length (("content").data)
      (classify_chunk_content t) (contentMetadata t)) ss initChunkState
    (by simp [initChunkState]) ?_
  intro st2 s _ hp ch hch
  rcases chunkStep_chunks_cases p st2 s with hc | hc
  · rw [hc] at hch
    exact hp ch hch
  · rw [hc] at hch
    rcases List.mem_append.mp hch with hA | hB
    · exact hp ch hA
    · exact ⟨_, _, by simpa using hB⟩

theorem create_chunks_shape (p : TextProcessor) (ss : List Str) :
    ∀ ch ∈ create_chunks_with_overlap p ss,
      (∃ t i, ch = mkTextChunk t i (countWords t) t.length (("content").data)
        (classify_chunk_content t) (contentMetadata t)) ∨
      (∃ t i, ch = mkTextChunk t i (countWords t) t.length (("content").data)
        (classify_chunk_content t) (finalMetadata t)) := by
  intro ch hch
  unfold create_chunks_with_overlap finalFlush at hch
  by_cases hg : (chunksLoop p initChunkState ss).current ≠ [] ∧
      p.min_chunk_size ≤ (chunksLoop p initChunkState ss).current.length
  · rw [if_pos hg] at hch
    rcases List.mem_append.mp hch with hA | hB
    · exact Or.inl (loop_chunks_shape p ss ch hA)
    · exact Or.inr ⟨_, _, by simpa using hB⟩
  · rw [if_neg hg] at hch
    exact Or.inl (loop_chunks_shape p ss ch hch)

theorem mkTextChunk_metadata (t : Str) (i w c : Nat) (ty : Str) (kw : List Str)
    (md : Dict) : (mkTextChunk t i w c ty kw md).metadata = md := rfl

theorem mkTextChunk_chunk_type (t : Str) (i w c : Nat) (ty : Str) (kw : List Str)
    (md : Dict) : (mkTextChunk t i w c ty kw md).chunk_type = ty := rfl

theorem mkTextChunk_text (t : Str) (i w c : Nat) (ty : Str) (kw : List Str)
    (md : Dict) : (mkTextChunk t i w c ty kw md).text = t := rfl

theorem dictLookup_contentMetadata_isFinal (t : Str) :
    dictLookup (contentMetadata t) (("is_final").data) = none := by
  simp +decide [contentMetadata, dictLookup]

theorem dictLookup_finalMetadata_isFinal (t : Str) :
    dictLookup (finalMetadata t) (("is_final").data) = some (MetaVal.boolV true) := by
  simp +decide [finalMetadata, dictLookup]

theorem loop_chunks_no_final (p : TextProcessor) (ss : List Str) :
    ∀ ch ∈ (chunksLoop p initChunkState ss).chunks,
      dictLookup ch.metadata (("is_final").data) = none := by
  intro ch hch
  obtain ⟨t, i, rfl⟩ := loop_chunks_shape p ss ch hch
  rw [mkTextChunk_metadata]
  exact dictLookup_contentMetadata_isFinal t

/-! Claims C1, C2 and C5: the size floor, the final flush condition and the
structural metadata flags. -/

/-- Claim C1 (corrected), counterexample: the claim quantifies over every
list of sentences, but on the sentence list `["x" * 98, " "]` the processor
(default `chunk_size=300, overlap=50`, `min_chunk_size=100`) emits a content
chunk of `char_count` 98, below the floor: the post-loop size check measures
the un-stripped buffer (length 100 here) while the emitted text is stripped. -/
theorem size_floor_violation_on_raw_sentences :
    (mkTextProcessor 300 50).min_chunk_size = 100 ∧
    (create_chunks_with_overlap (mkTextProcessor 300 50)
      [List.replicate 98 'x', [' ']]).map (fun c => c.char_count) = [98] :=
  ⟨rfl, by decide⟩

/-- Claim C1 (corrected, amended): for every sentence list whose sentences
are non-empty and carry no leading or trailing whitespace — exactly the shape
`smart_split_sentences` produces — every content chunk emitted by
`create_chunks_with_overlap` has `char_count` at least `min_chunk_size`, and
a prospective chunk below the floor is never emitted. -/
theorem create_chunks_size_floor (p : TextProcessor) (ss : List Str)
    (hss : ∀ s ∈ ss, s ≠ [] ∧ pyStrip s = s) :
    ∀ ch ∈ create_chunks_with_overlap p ss, p.min_chunk_size ≤ ch.char_count := by
  have hinv := chunksLoop_inv p (fun st =>
      pyStrip st.current = st.current ∧
      pyStrip st.overlap_buffer = st.overlap_buffer ∧
      ∀ ch ∈ st.chunks, p.min_chunk_size ≤ ch.char_count) ss initChunkState
    ⟨by decide, by decide, by simp [initChunkState]⟩
    (fun st2 s hs hp => chunkStep_preserves_stripped_floor p st2 s
      (hss s hs).1 (hss s hs).2 hp.1 hp.2.1 hp.2.2)
  intro ch hch
  unfold create_chunks_with_overlap finalFlush at hch
  by_cases hg : (chunksLoop p initChunkState ss).current ≠ [] ∧
      p.min_chunk_size ≤ (chunksLoop p initChunkState ss).current.length
  · rw [if_pos hg] at hch
    rcases List.mem_append.mp hch with h1 | h2
    · exact hinv.2.2 ch h1
    · have heq : ch = mkTextChunk
          (pyStrip ((chunksLoop p initChunkState ss).overlap_buffer ++ ' ' ::
            (chunksLoop p initChunkState ss).current))
          (chunksLoop p initChunkState ss).chunk_index
          (countWords (pyStrip ((chunksLoop p initChunkState ss).overlap_buffer ++ ' ' ::
            (chunksLoop p initChunkState ss).current)))
          (pyStrip ((chunksLoop p initChunkState ss).overlap_buffer ++ ' ' ::
            (chunksLoop p initChunkState ss).current)).length (("content").data)
          (classify_chunk_content (pyStrip ((chunksLoop p initChunkState ss).overlap_buffer ++
            ' ' :: (chunksLoop p initChunkState ss).current)))
          (finalMetadata (pyStrip ((chunksLoop p initChunkState ss).overlap_buffer ++ ' ' ::
            (chunksLoop p initChunkState ss).current))) := by
        simpa using h2
      rw [heq, mkTextChunk_char_count]
      calc p.min_chunk_size ≤ (chunksLoop p initChunkState ss).current.length := hg.2
        _ ≤ _ := length_pyStrip_append_ge hinv.1 hg.1
  · rw [if_neg hg] at hch
    exact hinv.2.2 ch hch

/-- Witness for C1's amended theorem at a concrete input. -/
theorem create_chunks_size_floor_witness :
    (mkTextProcessor 300 50).min_chunk_size ≤
      ((create_chunks_with_overlap (mkTextProcessor 300 50)
        [List.replicate 120 'a']).get ⟨0, by decide⟩).char_count :=
  create_chunks_size_floor (mkTextProcessor 300 50) [List.replicate 120 'a']
    (by decide) _ (List.get_mem _ _ _)

/-- Claim C2 (corrected), counterexample: after the loop on two sentences
(21 nine-character words, then 95 characters), the buffer is non-empty and
the carry (49 chars) prepended to the buffer (95 chars) has stripped length
145, at or above `min_chunk_size = 100` — the claim's condition holds — yet
no chunk tagged `is_final` is emitted, because the source checks only
`len(current_chunk)`, which is 95. -/
theorem final_flush_carry_not_counted :
    ((chunksLoop (mkTextProcessor 300 50) initChunkState
        [pyJoinSpace (List.replicate 21 (List.replicate 9 'a')),
          List.replicate 95 'y']).current ≠ [] ∧
      (mkTextProcessor 300 50).min_chunk_size ≤
        (pyStrip ((chunksLoop (mkTextProcessor 300 50) initChunkState
          [pyJoinSpace (List.replicate 21 (List.replicate 9 'a')),
            List.replicate 95 'y']).overlap_buffer ++ ' ' ::
          (chunksLoop (mkTextProcessor 300 50) initChunkState
          [pyJoinSpace (List.replicate 21 (List.replicate 9 'a')),
            List.replicate 95 'y']).current)).length) ∧
    (create_chunks_with_overlap (mkTextProcessor 300 50)
      [pyJoinSpace (List.replicate 21 (List.replicate 9 'a')),
        List.replicate 95 'y']).map
      (fun c => dictHasKey c.metadata (("is_final").data)) = [false] :=
  ⟨⟨by decide, by decide⟩, by decide⟩

/-- Claim C2 (corrected, amended): after the sentence loop,
`create_chunks_with_overlap` emits a final chunk tagged `is_final` if and
only if the buffer is non-empty and the buffer's own length (the overlap
carry does not count, although it is prepended to the emitted text) is at
least `min_chunk_size`. -/
theorem final_flush_emission_iff (p : TextProcessor) (ss : List Str) :
    (∃ ch ∈ create_chunks_with_overlap p ss,
        dictLookup ch.metadata (("is_final").data) = some (MetaVal.boolV true)) ↔
    ((chunksLoop p initChunkState ss).current ≠ [] ∧
      p.min_chunk_size ≤ (chunksLoop p initChunkState ss).current.length) := by
  constructor
  · rintro ⟨ch, hch, hlk⟩
    by_contra hg
    unfold create_chunks_with_overlap finalFlush at hch
    rw [if_neg hg] at hch
    rw [loop_chunks_no_final p ss ch hch] at hlk
    exact Option.noConfusion hlk
  · intro hg
    unfold create_chunks_with_overlap finalFlush
    rw [if_pos hg]
    refine ⟨_, List.mem_append_right _ (List.mem_singleton_self _), ?_⟩
    rw [mkTextChunk_metadata]
    exact dictLookup_finalMetadata_isFinal _

/-- Claim C5 (corrected), counterexample: on the single 120-character
sentence, the emitted (final) content chunk's metadata has no `has_numbers`
key — the post-loop chunk carries only the sentence count and `is_final`,
not the four structural flags the claim requires of every content chunk. -/
theorem final_chunk_missing_flags :
    (create_chunks_with_overlap (mkTextProcessor 300 50)
      [List.replicate 120 'x']).map
        (fun c => (dictHasKey c.metadata (("has_numbers").data),
                   dictHasKey c.metadata (("has_dates").data),
                   dictHasKey c.metadata (("complexity").data),
                   dictHasKey c.metadata (("sentence_count").data))) =
      [(false, false, false, true)] := by decide

/-- Claim C5 (corrected, amended): every content chunk emitted inside the
sentence loop (those without the `is_final` key) carries all four structural
flags — sentence count, digit flag, date flag and complexity flag — while
the post-loop final chunk carries only the sentence count next to its
`is_final` tag. -/
theorem content_chunk_metadata_flags (p : TextProcessor) (ss : List Str) :
    ∀ ch ∈ create_chunks_with_overlap p ss,
      (dictLookup ch.metadata (("is_final").data) = none →
        dictHasKey ch.metadata (("sentence_count").data) ∧
        dictHasKey ch.metadata (("has_numbers").data) ∧
        dictHasKey ch.metadata (("has_dates").data) ∧
        dictHasKey ch.metadata (("complexity").data)) ∧
      (dictLookup ch.metadata (("is_final").data) ≠ none →
        dictHasKey ch.metadata (("sentence_count").data) ∧
        ¬ dictHasKey ch.metadata (("has_numbers").data) ∧
        ¬ dictHasKey ch.metadata (("has_dates").data) ∧
        ¬ dictHasKey ch.metadata (("complexity").data)) := by
  intro ch hch
  rcases create_chunks_shape p ss ch hch with ⟨t, i, rfl⟩ | ⟨t, i, rfl⟩
  · rw [mkTextChunk_metadata]
    constructor
    · intro _
      refine ⟨?_, ?_, ?_, ?_⟩ <;> simp +decide [contentMetadata, dictHasKey, dictLookup]
    · intro hne
      exact absurd (dictLookup_contentMetadata_isFinal t) hne
  · rw [mkTextChunk_metadata]
    constructor
    · intro hnone
      rw [dictLookup_finalMetadata_isFinal t] at hnone
      exact Option.noConfusion hnone
    · intro _
      refine ⟨?_, ?_, ?_, ?_⟩ <;> simp +decide [finalMetadata, dictHasKey, dictLookup]

/-- Witness for C5's amended theorem at a concrete input. -/
theorem content_chunk_metadata_flags_witness :
    dictHasKey ((create_chunks_with_overlap (mkTextProcessor 300 50)
        [List.replicate 120 'x']).get ⟨0, by decide⟩).metadata
      (("sentence_count").data) :=
  ((content_chunk_metadata_flags (mkTextProcessor 300 50) [List.replicate 120 'x']
    ((create_chunks_with_overlap (mkTextProcessor 300 50)
      [List.replicate 120 'x']).get ⟨0, by decide⟩)
    (List.get_mem _ _ _)).2 (by decide)).1

/-! Claim C3: contiguous indexing and title precedence. -/

theorem mkTextChunk_chunk_index (t : Str) (i w c : Nat) (ty : Str) (kw : List Str)
    (md : Dict) : (mkTextChunk t i w c ty kw md).chunk_index = i := rfl

theorem chunkStep_index_cases (p : TextProcessor) (st : ChunkState) (s : Str) :
    ((chunkStep p st s).chunks = st.chunks ∧
      (chunkStep p st s).chunk_index = st.chunk_index) ∨
    ((chunkStep p st s).chunks = st.chunks ++
        [mkTextChunk (pyStrip (st.overlap_buffer ++ ' ' :: st.current)) st.chunk_index
          (countWords (pyStrip (st.overlap_buffer ++ ' ' :: st.current)))
          (pyStrip (st.overlap_buffer ++ ' ' :: st.current)).length (("content").data)
          (classify_chunk_content (pyStrip (st.overlap_buffer ++ ' ' :: st.current)))
          (contentMetadata (pyStrip (st.overlap_buffer ++ ' ' :: st.current)))] ∧
      (chunkStep p st s).chunk_index = st.chunk_index + 1) := by
  unfold chunkStep
  by_cases h1 : p.chunk_size <
      (if st.current ≠ [] then st.current ++ ' ' :: s else s).length ∧ st.current ≠ []
  · rw [if_pos h1]
    by_cases h2 : p.min_chunk_size ≤ (pyStrip (st.overlap_buffer ++ ' ' :: st.current)).length
    · right; exact ⟨by simp [h2], by simp [h2]⟩
    · left; exact ⟨by simp [h2], by simp [h2]⟩
  · left; rw [if_neg h1]; exact ⟨rfl, rfl⟩

theorem loop_chunks_indexed (p : TextProcessor) (ss : List Str) :
    (chunksLoop p initChunkState ss).chunks.length =
      (chunksLoop p initChunkState ss).chunk_index ∧
    ∀ i (h : i < (chunksLoop p initChunkState ss).chunks.length),
      ((chunksLoop p initChunkState ss).chunks.get ⟨i, h⟩).chunk_index = i := by
  refine chunksLoop_inv p (fun st => st.chunks.length = st.chunk_index ∧
    ∀ i (h : i < st.chunks.length), (st.chunks.get ⟨i, h⟩).chunk_index = i)
    ss initChunkState ⟨rfl, by simp [initChunkState]⟩ ?_
  intro st2 s _ hp
  rcases chunkStep_index_cases p st2 s with ⟨hc, hi⟩ | ⟨hc, hi⟩
  · rw [hc, hi]
    exact hp
  · rw [hc, hi]
    constructor
    · simp [hp.1]
    · intro i h
      rw [List.length_append, List.length_singleton] at h
      by_cases hlt : i < st2.chunks.length
      · rw [List.get_eq_getElem, List.getElem_append_left hlt]
        exact hp.2 i hlt
      · have hieq : i = st2.chunks.length := by omega
        subst hieq
        rw [List.get_eq_getElem, List.getElem_append_right (le_refl _)]
        simp [mkTextChunk_chunk_index, hp.1]

theorem create_chunks_indices_opt (p : TextProcessor) (ss : List Str) :
    ∀ (i : Nat) (ch : TextChunk),
      (create_chunks_with_overlap p ss)[i]? = some ch → ch.chunk_index = i := by
  intro i ch hch
  obtain ⟨hlen, hidx⟩ := loop_chunks_indexed p ss
  unfold create_chunks_with_overlap finalFlush at hch
  by_cases hg : (chunksLoop p initChunkState ss).current ≠ [] ∧
      p.min_chunk_size ≤ (chunksLoop p initChunkState ss).current.length
  · rw [if_pos hg] at hch
    by_cases hlt : i < (chunksLoop p initChunkState ss).chunks.length
    · rw [List.getElem?_append, if_pos hlt, List.getElem?_eq_getElem hlt] at hch
      have := hidx i hlt
      simp only [Option.some.injEq] at hch
      rw [← hch]
      exact this
    · have hle : (chunksLoop p initChunkState ss).chunks.length ≤ i := by omega
      rw [List.getElem?_append_right hle] at hch
      have hlen2 := hch
      by_cases hzero : i - (chunksLoop p initChunkState ss).chunks.length = 0
      · rw [hzero] at hch
        simp only [List.getElem?_cons_zero, Option.some.injEq] at hch
        rw [← hch, mkTextChunk_chunk_index, ← hlen]
        omega
      · rw [List.getElem?_cons] at hch
        rw [if_neg hzero] at hch
        simp at hch
  · rw [if_neg hg] at hch
    have hlt : i < (chunksLoop p initChunkState ss).chunks.length := by
      by_contra hge
      rw [List.getElem?_eq_none (by omega)] at hch
      exact Option.noConfusion hch
    rw [List.getElem?_eq_getElem hlt] at hch
    simp only [Option.some.injEq] at hch
    rw [← hch]
    exact hidx i hlt

theorem create_chunks_indices (p : TextProcessor) (ss : List Str) :
    ∀ i (h : i < (create_chunks_with_overlap p ss).length),
      ((create_chunks_with_overlap p ss).get ⟨i, h⟩).chunk_index = i := by
  intro i h
  apply create_chunks_indices_opt p ss i
  rw [List.get_eq_getElem]
  exact List.getElem?_eq_getElem h

theorem create_chunks_types (p : TextProcessor) (ss : List Str) :
    ∀ ch ∈ create_chunks_with_overlap p ss, ch.chunk_type = ("content").data := by
  intro ch hch
  rcases create_chunks_shape p ss ch hch with ⟨t, i, rfl⟩ | ⟨t, i, rfl⟩ <;>
    exact mkTextChunk_chunk_type ..

theorem titleChunksOf_cases (title : Str) (md : Dict) :
    titleChunksOf title md = [] ∨
    titleChunksOf title md = [mkTextChunk (pyStrip title) 0 (countWords title)
      title.length (("title").data) [("titre").data]
      (dictSet md (("is_title").data) (MetaVal.boolV true))] := by
  unfold titleChunksOf
  by_cases h : title ≠ [] ∧ 10 < (pyStrip title).length
  · right; rw [if_pos h]
  · left; rw [if_neg h]

theorem mem_process_document (p : TextProcessor) (title content : Str) (md : Dict)
    (ch : TextChunk) (hch : ch ∈ process_document p title content md) :
    ch ∈ titleChunksOf title md ∨
    ∃ c ∈ create_chunks_with_overlap p (smart_split_sentences (clean_text content)),
      ch = { c with
        metadata := dictUpdate c.metadata md,
        chunk_index := c.chunk_index + (titleChunksOf title md).length } := by
  unfold process_document at hch
  split_ifs at hch with h1 h2
  · simp at hch
  · exact Or.inl hch
  · rcases List.mem_append.mp hch with hA | hB
    · exact Or.inl hA
    · right
      obtain ⟨c, hc, hceq⟩ := List.mem_map.mp hB
      exact ⟨c, hc, hceq.symm⟩

theorem process_document_indices_opt (p : TextProcessor) (title content : Str)
    (md : Dict) : ∀ (i : Nat) (ch : TextChunk),
    (process_document p title content md)[i]? = some ch → ch.chunk_index = i := by
  intro i ch hch
  unfold process_document at hch
  split_ifs at hch with h1 h2
  · simp at hch
  · rcases titleChunksOf_cases title md with htc | htc
    · rw [htc] at hch
      simp at hch
    · rw [htc] at hch
      cases i with
      | zero =>
        rw [List.getElem?_cons_zero] at hch
        simp only [Option.some.injEq] at hch
        rw [← hch, mkTextChunk_chunk_index]
      | succ j =>
        rw [List.getElem?_cons_succ] at hch
        simp at hch
  · rcases titleChunksOf_cases title md with htc | htc
    · rw [htc] at hch
      rw [List.nil_append, List.getElem?_map] at hch
      cases hraw : (create_chunks_with_overlap p
          (smart_split_sentences (clean_text content)))[i]? with
      | none => rw [hraw] at hch; simp at hch
      | some c =>
        rw [hraw] at hch
        simp only [Option.map_some', Option.some.injEq] at hch
        rw [← hch]
        have hidx := create_chunks_indices_opt p
          (smart_split_sentences (clean_text content)) i c hraw
        simp [htc, hidx]
    · rw [htc, List.singleton_append] at hch
      cases i with
      | zero =>
        rw [List.getElem?_cons_zero] at hch
        simp only [Option.some.injEq] at hch
        rw [← hch, mkTextChunk_chunk_index]
      | succ j =>
        rw [List.getElem?_cons_succ, List.getElem?_map] at hch
        cases hraw : (create_chunks_with_overlap p
            (smart_split_sentences (clean_text content)))[j]? with
        | none => rw [hraw] at hch; simp at hch
        | some c =>
          rw [hraw] at hch
          simp only [Option.map_some', Option.some.injEq] at hch
          rw [← hch]
          have hidx := create_chunks_indices_opt p
            (smart_split_sentences (clean_text content)) j c hraw
          simp [htc, hidx]

/-- Claim C3 (confirmed): for every `(title, content, metadata)` input, the
chunk sequence returned by `process_document` has `chunk_index` values equal
to positions (hence exactly the contiguous range `0 .. N-1`), and any title
chunk sits at index 0 with `chunk_type` equal to `title` (content chunks all
carry `chunk_type` equal to `content`). -/
theorem process_document_contiguous_indexing (p : TextProcessor)
    (title content : Str) (md : Dict) :
    (∀ i (h : i < (process_document p title content md).length),
      ((process_document p title content md).get ⟨i, h⟩).chunk_index = i) ∧
    (∀ ch ∈ process_document p title content md,
      ch.chunk_type = ("title").data → ch.chunk_index = 0) := by
  constructor
  · intro i h
    apply process_document_indices_opt p title content md i
    rw [List.get_eq_getElem]
    exact List.getElem?_eq_getElem h
  · intro ch hch htitle
    rcases mem_process_document p title content md ch hch with hA | ⟨c, hc, rfl⟩
    · rcases titleChunksOf_cases title md with htc | htc
      · rw [htc] at hA
        simp at hA
      · rw [htc] at hA
        simp only [List.mem_singleton] at hA
        rw [hA, mkTextChunk_chunk_index]
    · have hct := create_chunks_types p _ c hc
      have hty : ({ c with
          metadata := dictUpdate c.metadata md,
          chunk_index := c.chunk_index + (titleChunksOf title md).length }).chunk_type
          = c.chunk_type := rfl
      rw [hty, hct] at htitle
      exact absurd htitle (by decide)

/-- Witness for C3 at a concrete input that yields a title chunk and a
content chunk. -/
theorem process_document_contiguous_indexing_witness :
    ((process_document (mkTextProcessor 300 50) (("Mon grand titre de test").data)
      (("Ceci est une longue phrase de test qui contient suffisamment de caracteres pour depasser le seuil minimal de cent caracteres fixes.").data)
      []).get ⟨1, by decide⟩).chunk_index = 1 :=
  (process_document_contiguous_indexing (mkTextProcessor 300 50)
    (("Mon grand titre de test").data)
    (("Ceci est une longue phrase de test qui contient suffisamment de caracteres pour depasser le seuil minimal de cent caracteres fixes.").data)
    []).1 1 (by decide)

/-! Claim C4: word and character counts. -/

/-- Claim C4 (corrected), counterexample: with the title padded by one space
on each side (`" Mon grand titre de test "`), `process_document` emits a
title chunk whose `char_count` (25, the length of the unstripped title)
differs from the length of its `text` field (23, the stripped title). -/
theorem title_char_count_mismatch :
    ((process_document (mkTextProcessor 300 50) ((" Mon grand titre de test ").data)
      (("Ceci est une longue phrase de test qui contient suffisamment de caracteres pour depasser le seuil minimal de cent caracteres fixes.").data)
      [])[0]?).map
        (fun c => (c.chunk_type, c.char_count, c.text.length)) =
      some ((("title").data, 25, 23)) := by decide

/-- Claim C4 (corrected, amended): every chunk produced by `process_document`
has `word_count` equal to the number of whitespace-separated words of its
`text`; every content chunk has `char_count` equal to the length of its
`text`; the title chunk's `char_count` equals the length of the original,
unstripped title, which exceeds the length of its (stripped) `text` exactly
when the title carries surrounding whitespace. -/
theorem process_document_count_consistency (p : TextProcessor)
    (title content : Str) (md : Dict) :
    ∀ ch ∈ process_document p title content md,
      ch.word_count = countWords ch.text ∧
      (ch.chunk_type = ("content").data → ch.char_count = ch.text.length) ∧
      (ch.chunk_type = ("title").data → ch.char_count = title.length) := by
  intro ch hch
  rcases mem_process_document p title content md ch hch with hA | ⟨c, hc, rfl⟩
  · rcases titleChunksOf_cases title md with htc | htc
    · rw [htc] at hA
      simp at hA
    · rw [htc] at hA
      simp only [List.mem_singleton] at hA
      subst hA
      refine ⟨?_, ?_, ?_⟩
      · rw [mkTextChunk_text]
        unfold mkTextChunk
        by_cases h0 : countWords title = 0
        · simp [h0]
        · simp only [h0, if_neg, ite_false]
          exact (countWords_pyStrip title).symm
      · intro hty
        rw [mkTextChunk_chunk_type] at hty
        exact absurd hty (by decide)
      · intro _
        unfold mkTextChunk
        by_cases h0 : title.length = 0
        · have : title = [] := List.length_eq_zero.mp h0
          simp [this, h0, pyStrip]
        · simp [h0]
  · obtain hshape := create_chunks_shape p (smart_split_sentences (clean_text content)) c hc
    have htext : ({ c with
        metadata := dictUpdate c.metadata md,
        chunk_index := c.chunk_index + (titleChunksOf title md).length }).text = c.text := rfl
    have hwc : ({ c with
        metadata := dictUpdate c.metadata md,
        chunk_index := c.chunk_index + (titleChunksOf title md).length }).word_count =
        c.word_count := rfl
    have hcc : ({ c with
        metadata := dictUpdate c.metadata md,
        chunk_index := c.chunk_index + (titleChunksOf title md).length }).char_count =
        c.char_count := rfl
    have hty : ({ c with
        metadata := dictUpdate c.metadata md,
        chunk_index := c.chunk_index + (titleChunksOf title md).length }).chunk_type =
        c.chunk_type := rfl
    rw [htext, hwc, hcc, hty]
    rcases hshape with ⟨t, i, rfl⟩ | ⟨t, i, rfl⟩ <;>
    · refine ⟨?_, ?_, ?_⟩
      · rw [mkTextChunk_text]
        exact mkTextChunk_word_count ..
      · intro _
        rw [mkTextChunk_text]
        exact mkTextChunk_char_count ..
      · intro hty2
        rw [mkTextChunk_chunk_type] at hty2
        exact absurd hty2 (by decide)

/-- Witness for C4's amended theorem at a concrete input (the title chunk of
the counterexample document). -/
theorem process_document_count_consistency_witness :
    ((process_document (mkTextProcessor 300 50) ((" Mon grand titre de test ").data)
      (("Ceci est une longue phrase de test qui contient suffisamment de caracteres pour depasser le seuil minimal de cent caracteres fixes.").data)
      []).get ⟨0, by decide⟩).word_count =
      countWords ((process_document (mkTextProcessor 300 50)
        ((" Mon grand titre de test ").data)
        (("Ceci est une longue phrase de test qui contient suffisamment de caracteres pour depasser le seuil minimal de cent caracteres fixes.").data)
        []).get ⟨0, by decide⟩).text :=
  (process_document_count_consistency (mkTextProcessor 300 50)
    ((" Mon grand titre de test ").data)
    (("Ceci est une longue phrase de test qui contient suffisamment de caracteres pour depasser le seuil minimal de cent caracteres fixes.").data)
    [] _ (List.get_mem _ _ _)).1

/-! Claim C6: long sentences are never split. -/

theorem chunkStep_empty_current (p : TextProcessor) (st : ChunkState) (s : Str)
    (h : st.current = []) :
    chunkStep p st s = ⟨st.chunks, s, st.chunk_index, st.overlap_buffer⟩ := by
  unfold chunkStep
  rw [if_neg (by simp [h])]
  simp [h]

theorem long_sentence_emitted_aux (p : TextProcessor)
    (hsz : p.min_chunk_size ≤ p.chunk_size) (st : ChunkState) (s : Str)
    (hcur : st.current = s) (hs : pyStrip s = s) (hlen : p.chunk_size < s.length) :
    ∀ post : List Str, ∃ ch ∈ finalFlush p (chunksLoop p st post),
      ch.chunk_type = ("content").data ∧
      ch.text = pyStrip (st.overlap_buffer ++ ' ' :: s) ∧
      p.chunk_size < ch.char_count := by
  have hsne : s ≠ [] := by
    intro hnil
    rw [hnil] at hlen
    simp at hlen
  have hlen2 : s.length ≤ (pyStrip (st.overlap_buffer ++ ' ' :: s)).length :=
    length_pyStrip_append_ge hs hsne
  intro post
  cases post with
  | nil =>
    show ∃ ch ∈ finalFlush p st, _
    unfold finalFlush
    rw [if_pos (by rw [hcur]; exact ⟨hsne, by omega⟩)]
    rw [hcur]
    refine ⟨_, List.mem_append_right _ (List.mem_singleton_self _), ?_, ?_, ?_⟩
    · exact mkTextChunk_chunk_type ..
    · exact mkTextChunk_text ..
    · rw [mkTextChunk_char_count]
      omega
  | cons s2 rest =>
    rw [chunksLoop_cons]
    have hpc : p.chunk_size <
        (if st.current ≠ [] then st.current ++ ' ' :: s2 else s2).length ∧
        st.current ≠ [] := by
      rw [hcur]
      refine ⟨?_, hsne⟩
      rw [if_pos hsne]
      rw [List.length_append]
      simp
      omega
    have hemit : p.min_chunk_size ≤
        (pyStrip (st.overlap_buffer ++ ' ' :: st.current)).length := by
      rw [hcur]
      omega
    have hchunks : (chunkStep p st s2).chunks = st.chunks ++
        [mkTextChunk (pyStrip (st.overlap_buffer ++ ' ' :: st.current)) st.chunk_index
          (countWords (pyStrip (st.overlap_buffer ++ ' ' :: st.current)))
          (pyStrip (st.overlap_buffer ++ ' ' :: st.current)).length (("content").data)
          (classify_chunk_content (pyStrip (st.overlap_buffer ++ ' ' :: st.current)))
          (contentMetadata (pyStrip (st.overlap_buffer ++ ' ' :: st.current)))] := by
      unfold chunkStep
      rw [if_pos hpc]
      simp [hemit]
    refine ⟨_, mem_flush_loop_of_mem p rest (chunkStep p st s2) _
      (hchunks ▸ List.mem_append_right _ (List.mem_singleton_self _)), ?_, ?_, ?_⟩
    · exact mkTextChunk_chunk_type ..
    · rw [mkTextChunk_text, hcur]
    · rw [mkTextChunk_char_count, hcur]
      omega

/-- Claim C6 (corrected), counterexample: the claim promises that a sentence
longer than `chunk_size`, absorbed into an empty buffer, is later emitted as
one chunk — but with `TextProcessor(chunk_size=50, overlap=50)` (the minimum
stays hard-coded at 100) a single 60-character sentence exceeds the target
yet the output is empty: the would-be chunk fails the 100-character floor
and is dropped. -/
theorem long_sentence_dropped_small_chunk_size :
    (mkTextProcessor 50 50).chunk_size < (List.replicate 60 'a').length ∧
    create_chunks_with_overlap (mkTextProcessor 50 50) [List.replicate 60 'a'] = [] :=
  ⟨by decide, by decide⟩

/-- Claim C6 (corrected, amended): provided `min_chunk_size ≤ chunk_size`
(true of the shipped configuration, 100 ≤ 300) and the sentence is a
stripped string longer than `chunk_size` arriving at an empty buffer, the
sentence is absorbed whole and later emitted as exactly one chunk — the
overlap carry prepended to just that sentence — whose size exceeds the
target. -/
theorem long_sentence_single_chunk (p : TextProcessor)
    (hsz : p.min_chunk_size ≤ p.chunk_size) (pre : List Str) (s : Str)
    (post : List Str)
    (hcur : (chunksLoop p initChunkState pre).current = [])
    (hs : pyStrip s = s) (hlen : p.chunk_size < s.length) :
    ∃ ch ∈ create_chunks_with_overlap p (pre ++ s :: post),
      ch.chunk_type = ("content").data ∧
      ch.text = pyStrip ((chunksLoop p initChunkState pre).overlap_buffer ++ ' ' :: s) ∧
      p.chunk_size < ch.char_count := by
  unfold create_chunks_with_overlap
  rw [chunksLoop_append, chunksLoop_cons, chunkStep_empty_current p _ s hcur]
  exact long_sentence_emitted_aux p hsz _ s rfl hs hlen post

/-- Witness for C6's amended theorem at a concrete input. -/
theorem long_sentence_single_chunk_witness :
    (mkTextProcessor 300 50).min_chunk_size ≤ (mkTextProcessor 300 50).chunk_size ∧
    ∃ ch ∈ create_chunks_with_overlap (mkTextProcessor 300 50)
        ([] ++ List.replicate 301 'b' :: []),
      ch.chunk_type = ("content").data ∧
      ch.text = pyStrip ((chunksLoop (mkTextProcessor 300 50) initChunkState
        []).overlap_buffer ++ ' ' :: List.replicate 301 'b') ∧
      (mkTextProcessor 300 50).chunk_size < ch.char_count :=
  ⟨by decide, long_sentence_single_chunk (mkTextProcessor 300 50) (by decide) []
    (List.replicate 301 'b') [] (by decide) (by decide) (by decide)⟩

/-! Claims C7 and C10: chunk content classification and the fixed minimum. -/

theorem pyInStr_iff (needle hay : Str) : pyInStr needle hay = true ↔ needle <:+: hay := by
  unfold pyInStr
  rw [List.any_eq_true]
  constructor
  · rintro ⟨t, ht, hp⟩
    rw [List.mem_tails] at ht
    rw [ List.isPrefixOf_iff_prefix] at hp
    exact List.infix_iff_prefix_suffix.mpr ⟨t, hp, ht⟩
  · intro h
    obtain ⟨t, hp, ht⟩ := List.infix_iff_prefix_suffix.mp h
    exact ⟨t, (List.mem_tails t hay).mpr ht, ( List.isPrefixOf_iff_prefix).mpr hp⟩

/-- Claim C7 (confirmed): `classify_chunk_content` returns exactly the set of
categories of the six-entry keyword table with at least one keyword occurring
as a substring of the lower-cased text, the singleton `general` when no
category matches, and in particular never an empty result (and never an
error: the function is total). -/
theorem classify_chunk_content_characterization (t : Str) :
    classify_chunk_content t ≠ [] ∧
    ∀ cat : Str, (cat ∈ classify_chunk_content t ↔
      ((∃ e ∈ chunk_keywords, e.1 = cat ∧ ∃ kw ∈ e.2, kw <:+: pyLower t) ∨
       (cat = ("general").data ∧
        ∀ e ∈ chunk_keywords, ∀ kw ∈ e.2, ¬ kw <:+: pyLower t))) := by
  have hpred : ∀ e : Str × List Str,
      ((e.2.any fun kw => pyInStr kw (pyLower t)) = true ↔
        ∃ kw ∈ e.2, kw <:+: pyLower t) := by
    intro e
    rw [List.any_eq_true]
    constructor
    · rintro ⟨kw, hkw, hin⟩
      exact ⟨kw, hkw, (pyInStr_iff kw (pyLower t)).mp hin⟩
    · rintro ⟨kw, hkw, hin⟩
      exact ⟨kw, hkw, (pyInStr_iff kw (pyLower t)).mpr hin⟩
  simp only [classify_chunk_content]
  by_cases hfil :
      (chunk_keywords.filter fun e => e.2.any fun kw => pyInStr kw (pyLower t)) = []
  · rw [hfil, List.map_nil, if_pos rfl]
    refine ⟨by simp, ?_⟩
    intro cat
    rw [List.mem_singleton]
    constructor
    · intro hcat
      right
      refine ⟨hcat, ?_⟩
      intro e he kw hkw hin
      exact (List.filter_eq_nil_iff.mp hfil e he) ((hpred e).mpr ⟨kw, hkw, hin⟩)
    · rintro (⟨e, he, _, kw, hkw, hin⟩ | ⟨hcat, _⟩)
      · exact absurd ((hpred e).mpr ⟨kw, hkw, hin⟩) (List.filter_eq_nil_iff.mp hfil e he)
      · exact hcat
  · have hne :
        (chunk_keywords.filter fun e => e.2.any fun kw => pyInStr kw (pyLower t)).map
          Prod.fst ≠ [] := by
      intro hmap
      exact hfil (List.map_eq_nil.mp hmap)
    rw [if_neg hne]
    refine ⟨hne, ?_⟩
    intro cat
    constructor
    · intro hcat
      obtain ⟨e, hef, hecat⟩ := List.mem_map.mp hcat
      left
      exact ⟨e, (List.mem_filter.mp hef).1, hecat,
        (hpred e).mp (List.mem_filter.mp hef).2⟩
    · rintro (⟨e, he, hecat, kw, hkw, hin⟩ | ⟨_, hno⟩)
      · exact List.mem_map.mpr
          ⟨e, List.mem_filter.mpr ⟨he, (hpred e).mpr ⟨kw, hkw, hin⟩⟩, hecat⟩
      · exfalso
        cases hflt : (chunk_keywords.filter fun e =>
            e.2.any fun kw => pyInStr kw (pyLower t)) with
        | nil => exact hfil hflt
        | cons e rest =>
          have hef : e ∈ chunk_keywords.filter fun e =>
              e.2.any fun kw => pyInStr kw (pyLower t) := by
            rw [hflt]
            exact List.mem_cons_self e rest
          obtain ⟨kw, hkw, hin⟩ := (hpred e).mp (List.mem_filter.mp hef).2
          exact hno e (List.mem_filter.mp hef).1 kw hkw hin

/-- Claim C10 (confirmed): whatever `chunk_size` and `overlap` are passed to
the constructor, `min_chunk_size` is 100 — it is not a construction-time
tunable; and since every method of the embedding takes the processor
immutably (the source never reassigns the field outside `__init__`), no
operation changes it. -/
theorem min_chunk_size_constant :
    ∀ chunk_size overlap : Nat,
      (mkTextProcessor chunk_size overlap).min_chunk_size = 100 :=
  fun _ _ => rfl

/-! Claim C8: the domain classifier matches its specification reading. -/

theorem domainSelect_eq (n1 n2 n3 : Str) (s1 s2 s3 : Nat) :
    (if 0 < pyMaxVals [(n1, s1), (n2, s2), (n3, s3)] then
      pyArgMax [(n1, s1), (n2, s2), (n3, s3)]
    else ("autre").data) =
    (if ([(n1, s1), (n2, s2), (n3, s3)] : List (Str × Nat)).all (fun e => e.2 = 0) then
      ("autre").data
    else
      match ([(n1, s1), (n2, s2), (n3, s3)] : List (Str × Nat)).filter
          (fun e => pyMaxVals [(n1, s1), (n2, s2), (n3, s3)] ≤ e.2) with
      | [] => ("autre").data
      | e :: _ => e.1) := by
  have hm : pyMaxVals [(n1, s1), (n2, s2), (n3, s3)] = (s1.max s2).max s3 := by
    simp [pyMaxVals, Nat.zero_max]
  have hargmax : pyArgMax [(n1, s1), (n2, s2), (n3, s3)] =
      (if (if s1 < s2 then (n2, s2) else (n1, s1)).2 < s3 then (n3, s3)
       else if s1 < s2 then (n2, s2) else (n1, s1)).1 := by
    simp [pyArgMax]
  rcases Nat.lt_or_ge s1 s2 with h12 | h21
  · rcases Nat.lt_or_ge s2 s3 with h23 | h32
    · have hmv : pyMaxVals [(n1, s1), (n2, s2), (n3, s3)] = s3 := by
        rw [hm]
        simp only [Nat.max_def]
        split_ifs <;> omega
      rw [if_pos (by rw [hmv]; omega), if_neg (by simp; omega), hargmax]
      rw [if_pos (by rw [if_pos h12]; show s2 < s3; omega)]
      simp only [hmv, List.filter_cons, List.filter_nil, decide_eq_true_eq]
      rw [if_neg (by show ¬ s3 ≤ s1; omega), if_neg (by show ¬ s3 ≤ s2; omega),
        if_pos (by show s3 ≤ s3; omega)]
    · have hmv : pyMaxVals [(n1, s1), (n2, s2), (n3, s3)] = s2 := by
        rw [hm]
        simp only [Nat.max_def]
        split_ifs <;> omega
      rw [if_pos (by rw [hmv]; omega), if_neg (by simp; omega), hargmax]
      rw [if_neg (by rw [if_pos h12]; show ¬ s2 < s3; omega)]
      rw [if_pos h12]
      simp only [hmv, List.filter_cons, List.filter_nil, decide_eq_true_eq]
      rw [if_neg (by show ¬ s2 ≤ s1; omega), if_pos (by show s2 ≤ s2; omega)]
  · rcases Nat.lt_or_ge s1 s3 with h13 | h31
    · have hmv : pyMaxVals [(n1, s1), (n2, s2), (n3, s3)] = s3 := by
        rw [hm]
        simp only [Nat.max_def]
        split_ifs <;> omega
      rw [if_pos (by rw [hmv]; omega), if_neg (by simp; omega), hargmax]
      rw [if_pos (by rw [if_neg (by show ¬ s1 < s2; omega)]; show s1 < s3; omega)]
      simp only [hmv, List.filter_cons, List.filter_nil, decide_eq_true_eq]
      rw [if_neg (by show ¬ s3 ≤ s1; omega), if_neg (by show ¬ s3 ≤ s2; omega),
        if_pos (by show s3 ≤ s3; omega)]
    · have hmv : pyMaxVals [(n1, s1), (n2, s2), (n3, s3)] = s1 := by
        rw [hm]
        simp only [Nat.max_def]
        split_ifs <;> omega
      by_cases h0 : s1 = 0
      · rw [if_neg (by rw [hmv]; omega), if_pos (by simp; omega)]
      · rw [if_pos (by rw [hmv]; omega), if_neg (by simp; omega), hargmax]
        rw [if_neg (by rw [if_neg (by show ¬ s1 < s2; omega)]; show ¬ s1 < s3; omega)]
        rw [if_neg (by show ¬ s1 < s2; omega)]
        simp only [hmv, List.filter_cons, List.filter_nil, decide_eq_true_eq]
        rw [if_pos (by show s1 ≤ s1; omega)]

/-- Claim C8 (confirmed): `classify_domain` scores each of the three domains
by counting its distinct keywords occurring as substrings of the lower-cased
title plus first 500 content characters, returns the domain with the
strictly highest count, resolves ties in favor of the first-defined domain
in table order (`juridique`, then `rh`, then `economique`), and returns the
sentinel `autre` when every score is zero — stated as equality with the
spec-side definition `classify_domain_spec`. -/
theorem classify_domain_refines_spec (title content url : Str) :
    classify_domain title content url = classify_domain_spec title content url := by
  simp only [classify_domain, classify_domain_spec, domainScores, domain_keywords,
    List.map_cons, List.map_nil]
  exact domainSelect_eq _ _ _ _ _ _

/-! Claim C9: metadata merge precedence. -/

theorem dictLookup_dictSet (d : Dict) (k : Str) (v : MetaVal) (k2 : Str) :
    dictLookup (dictSet d k v) k2 = if k2 = k then some v else dictLookup d k2 := by
  induction d with
  | nil =>
    simp only [dictSet, dictLookup]
    by_cases h : k2 = k
    · rw [if_pos h.symm, if_pos h]
    · rw [if_neg (fun hh => h hh.symm), if_neg h]
  | cons e d ih =>
    obtain ⟨a, w⟩ := e
    simp only [dictSet]
    by_cases hak : a = k
    · rw [if_pos hak]
      simp only [dictLookup]
      by_cases hk2 : a = k2
      · rw [if_pos hk2, if_pos (hk2.symm.trans hak)]
      · rw [if_neg hk2, if_neg (fun h => hk2 (hak.trans h.symm)), if_neg hk2]
    · rw [if_neg hak]
      simp only [dictLookup]
      by_cases hk2 : a = k2
      · rw [if_pos hk2, if_neg (fun h => hak (hk2.trans h)), if_pos hk2]
      · rw [if_neg hk2, ih, if_neg hk2]

theorem dictHasKey_iff_mem (m : Dict) (k : Str) :
    dictHasKey m k = true ↔ k ∈ m.map Prod.fst := by
  induction m with
  | nil =>
    constructor
    · intro h
      exact Bool.noConfusion h
    · intro h
      exact absurd h (List.not_mem_nil k)
  | cons e d ih =>
    obtain ⟨a, w⟩ := e
    simp only [dictHasKey, dictLookup, List.map_cons, List.mem_cons]
    by_cases h : a = k
    · rw [if_pos h]
      constructor
      · intro _
        exact Or.inl h.symm
      · intro _
        rfl
    · rw [if_neg h]
      rw [dictHasKey] at ih
      rw [ih]
      constructor
      · intro hm
        exact Or.inr hm
      · rintro (heq | hm)
        · exact absurd heq.symm h
        · exact hm

theorem dictLookup_dictUpdate (d m : Dict) (k : Str)
    (hm : (m.map Prod.fst).Nodup) :
    dictLookup (dictUpdate d m) k =
      if dictHasKey m k then dictLookup m k else dictLookup d k := by
  induction m generalizing d with
  | nil => simp [dictUpdate, dictHasKey, dictLookup]
  | cons e m ih =>
    obtain ⟨a, v⟩ := e
    rw [List.map_cons, List.nodup_cons] at hm
    have hupd : dictUpdate d ((a, v) :: m) = dictUpdate (dictSet d a v) m := rfl
    rw [hupd, ih _ hm.2]
    by_cases hkm : dictHasKey m k = true
    · have hka : k ≠ a := by
        intro he
        rw [he] at hkm
        exact hm.1 ((dictHasKey_iff_mem m a).mp hkm)
      have hhk : dictHasKey ((a, v) :: m) k = true := by
        simp only [dictHasKey, dictLookup]
        rw [if_neg (fun h => hka h.symm)]
        exact hkm
      rw [if_pos hkm, if_pos hhk]
      simp only [dictLookup]
      rw [if_neg (fun h => hka h.symm)]
    · rw [if_neg (by simpa using hkm), dictLookup_dictSet]
      by_cases hka : k = a
      · have hhk : dictHasKey ((a, v) :: m) k = true := by
          simp only [dictHasKey, dictLookup]
          rw [if_pos hka.symm]
          rfl
        rw [if_pos hka, if_pos hhk]
        simp only [dictLookup]
        rw [if_pos hka.symm]
      · have hhk : ¬ dictHasKey ((a, v) :: m) k = true := by
          simp only [dictHasKey, dictLookup]
          rw [if_neg (fun h => hka h.symm)]
          simpa [dictHasKey] using hkm
        rw [if_neg hka, if_neg (by simpa using hhk)]

/-- Claim C9 (confirmed): when `process_document` merges the caller-supplied
metadata dictionary into a content chunk, a caller key colliding with one of
the assembler's structural flags overwrites the assembler's value (the caller
takes precedence), while keys not supplied by the caller keep the assembler's
values: for the content chunk at position `titleCount + i`, every lookup goes
to the caller dictionary when the key is present there and to the raw
assembler chunk otherwise. -/
theorem process_document_metadata_precedence (p : TextProcessor)
    (title content : Str) (md : Dict) (hmd : (md.map Prod.fst).Nodup)
    (h1 : p.min_chunk_size ≤ (clean_text content).length)
    (h2 : smart_split_sentences (clean_text content) ≠ [])
    (i : Nat) (c : TextChunk)
    (hc : (create_chunks_with_overlap p
      (smart_split_sentences (clean_text content)))[i]? = some c)
    (k : Str) :
    ∃ ch : TextChunk,
      (process_document p title content md)[(titleChunksOf title md).length + i]? =
        some ch ∧
      dictLookup ch.metadata k =
        (if dictHasKey md k then dictLookup md k else dictLookup c.metadata k) := by
  unfold process_document
  rw [if_neg (by omega), if_neg h2]
  refine ⟨{ c with
    metadata := dictUpdate c.metadata md,
    chunk_index := c.chunk_index + (titleChunksOf title md).length }, ?_, ?_⟩
  · rw [List.getElem?_append_right (Nat.le_add_right _ _)]
    have hsub : (titleChunksOf title md).length + i - (titleChunksOf title md).length
        = i := by omega
    rw [hsub, List.getElem?_map, hc, Option.map_some']
  · exact dictLookup_dictUpdate c.metadata md k hmd

/-- Witness for C9 at a concrete input: caller metadata supplying a
`has_numbers` key, checked on the first content chunk. -/
theorem process_document_metadata_precedence_witness :
    ∃ ch : TextChunk,
      (process_document (mkTextProcessor 300 50) (("Mon grand titre de test").data)
        (("Ceci est une longue phrase de test qui contient suffisamment de caracteres pour depasser le seuil minimal de cent caracteres fixes.").data)
        [(("has_numbers").data, MetaVal.boolV true)])[(titleChunksOf
          (("Mon grand titre de test").data)
          [(("has_numbers").data, MetaVal.boolV true)]).length + 0]? = some ch ∧
      dictLookup ch.metadata (("has_numbers").data) =
        (if dictHasKey [(("has_numbers").data, MetaVal.boolV true)] (("has_numbers").data)
         then dictLookup [(("has_numbers").data, MetaVal.boolV true)] (("has_numbers").data)
         else dictLookup ((create_chunks_with_overlap (mkTextProcessor 300 50)
            (smart_split_sentences (clean_text (("Ceci est une longue phrase de test qui contient suffisamment de caracteres pour depasser le seuil minimal de cent caracteres fixes.").data)))).get
            ⟨0, by decide⟩).metadata (("has_numbers").data)) :=
  process_document_metadata_precedence (mkTextProcessor 300 50)
    (("Mon grand titre de test").data)
    (("Ceci est une longue phrase de test qui contient suffisamment de caracteres pour depasser le seuil minimal de cent caracteres fixes.").data)
    [(("has_numbers").data, MetaVal.boolV true)] (by decide) (by decide) (by decide)
    0 _ (by rw [List.get_eq_getElem]; exact (List.getElem?_eq_getElem (by decide)).symm.symm)
    (("has_numbers").data)
